import Mathlib

/-!
Verification development for the Black_Hole_103 / Black_Hole_104 text
preprocessing codecs.

Python strings are modelled as lists of Unicode code points (`Str`), byte
strings as lists of naturals below 256 (`Bytes`).  Python dictionaries
appearing as `str -> int` tables are modelled as association lists with the
keys in insertion order (`Dict`); a Python dict has unique keys, and lookup
is modelled by the first matching pair.  Fallible Python operations (slicing
followed by indexing, `int.to_bytes` overflow, `str.encode` and
`bytes.decode` errors) are modelled with `Option`.

Decoder loops are modelled as structurally recursive functions on an
explicit iteration bound (fuel).  The loop of
`decompress_text_with_dictionary` advances the position by at least one byte
per iteration, so running it with `data.length` as fuel is exact: the fuel
can never run out on the real control flow.  The loop of
`DictionaryCompressor.decompress_file` in Black_Hole_104 can genuinely fail
to advance for malformed headers, so there the fuel is explicit in the
statements.
-/

/-- A Python `str`, as its list of Unicode code points. -/
abbrev Str := List Nat

/-- A Python `bytes`, as a list of naturals (each below 256 in real data). -/
abbrev Bytes := List Nat

/-- Code points of a Lean string literal, to write concrete Python strings. -/
def pystr (s : String) : Str := s.data.map Char.toNat

/-- The Unicode whitespace set used by Python `str.isspace`, `str.strip`
with no argument, and the regex class `\s` on `str` patterns. -/
def pyIsSpace (c : Nat) : Bool :=
  c = 9 ∨ c = 10 ∨ c = 11 ∨ c = 12 ∨ c = 13 ∨ c = 28 ∨ c = 29 ∨ c = 30 ∨
  c = 31 ∨ c = 32 ∨ c = 133 ∨ c = 160 ∨ c = 5760 ∨
  (8192 ≤ c ∧ c ≤ 8202) ∨ c = 8232 ∨ c = 8233 ∨ c = 8239 ∨ c = 8287 ∨
  c = 12288

/-- Python `str.strip()` with no argument: remove leading and trailing
whitespace. -/
def pyStrip (s : Str) : Str :=
  ((s.dropWhile pyIsSpace).reverse.dropWhile pyIsSpace).reverse

/-- Python `str.isspace()`: nonempty and all characters whitespace. -/
def pyIsSpaceStr (s : Str) : Bool := !s.isEmpty && s.all pyIsSpace

/-- The line boundary characters of Python `str.splitlines` (CR LF is
treated as a single boundary by `splitlinesAux`). -/
def isLineBreak (c : Nat) : Bool :=
  c = 10 ∨ c = 13 ∨ c = 11 ∨ c = 12 ∨ c = 28 ∨ c = 29 ∨ c = 30 ∨
  c = 133 ∨ c = 8232 ∨ c = 8233

/-- Worker for `str.splitlines(keepends=True)`; `acc` is the current line,
reversed. -/
def splitlinesAux : Str → Str → List Str
  | [], acc => if acc.isEmpty then [] else [acc.reverse]
  | 13 :: 10 :: rest, acc => (acc.reverse ++ [13, 10]) :: splitlinesAux rest []
  | c :: rest, acc =>
    if isLineBreak c then (acc.reverse ++ [c]) :: splitlinesAux rest []
    else splitlinesAux rest (c :: acc)

/-- Python `text.splitlines(keepends=True)`. -/
def pySplitlines (s : Str) : List Str := splitlinesAux s []

/-- Sentence-ending punctuation of the regex `(?<=[.!?]) +`: `.`, `!`, `?`. -/
def isEOS (c : Nat) : Bool := c = 46 ∨ c = 33 ∨ c = 63

/-- Whether the previous character (head of the reversed accumulator) is
sentence-ending punctuation, i.e. the lookbehind `(?<=[.!?])` holds. -/
def headIsEOS : Str → Bool
  | [] => false
  | c :: _ => isEOS c

/-- Worker for `re.split(r'(?<=[.!?]) +', line)`.  `skipping = true` while
consuming the maximal run of spaces of a separator match; `acc` is the
current segment, reversed.  The separator spaces are consumed and do not
appear in any output segment, exactly as `re.split` drops the matched text
of a pattern with no capturing group. -/
def sentAux : Str → Bool → Str → List Str
  | [], _, acc => [acc.reverse]
  | c :: rest, true, acc =>
    if c = 32 then sentAux rest true acc
    else sentAux rest false (c :: acc)
  | c :: rest, false, acc =>
    if c = 32 && headIsEOS acc then acc.reverse :: sentAux rest true []
    else sentAux rest false (c :: acc)

/-- Python `re.split(r'(?<=[.!?]) +', line)`. -/
def sentSplit (s : Str) : List Str := sentAux s false []

/-- Worker for `re.findall(r'\S+|\s+', s)`: maximal alternating runs of
whitespace and non-whitespace; `acc` is the current run, reversed. -/
def wsAux : Str → Str → List Str
  | [], acc => if acc.isEmpty then [] else [acc.reverse]
  | c :: rest, [] => wsAux rest [c]
  | c :: rest, a :: acc =>
    if pyIsSpace c = pyIsSpace a then wsAux rest (c :: a :: acc)
    else (a :: acc).reverse :: wsAux rest [c]

/-- Python `re.findall(r'\S+|\s+', s)`. -/
def wsTokens (s : Str) : List Str := wsAux s []

/-- UTF-8 encoding of a single valid code point. -/
def utf8EncodeChar (c : Nat) : Bytes :=
  if c < 128 then [c]
  else if c < 2048 then [192 + c / 64, 128 + c % 64]
  else if c < 65536 then [224 + c / 4096, 128 + c / 64 % 64, 128 + c % 64]
  else [240 + c / 262144, 128 + c / 4096 % 64, 128 + c / 64 % 64, 128 + c % 64]

/-- A code point Python `str.encode('utf-8')` accepts: in range and not a
surrogate. -/
def validCp (c : Nat) : Prop := c < 1114112 ∧ ¬(55296 ≤ c ∧ c < 57344)

instance (c : Nat) : Decidable (validCp c) := by
  unfold validCp; infer_instance

/-- Python `s.encode('utf-8')`: fails (UnicodeEncodeError) on surrogates or
out-of-range code points. -/
def pyEncodeUtf8 : Str → Option Bytes
  | [] => some []
  | c :: cs =>
    if validCp c then (pyEncodeUtf8 cs).map (utf8EncodeChar c ++ ·)
    else none

/-- Decode one UTF-8 sequence whose lead byte is `b` and whose following
bytes are `rest`, returning the code point and the remaining bytes.
Rejects stray or missing continuation bytes, overlong forms, surrogates and
values above U+10FFFF, exactly as the strict `bytes.decode('utf-8')`
does. -/
def utf8DecodeOne (b : Nat) (rest : Bytes) : Option (Nat × Bytes) :=
    if b < 128 then some (b, rest)
    else if b < 192 then none
    else if b < 224 then
      match rest with
      | b1 :: r =>
        if 128 ≤ b1 ∧ b1 < 192 then
          if 128 ≤ (b - 192) * 64 + (b1 - 128) then
            some ((b - 192) * 64 + (b1 - 128), r)
          else none
        else none
      | [] => none
    else if b < 240 then
      match rest with
      | b1 :: b2 :: r =>
        if (128 ≤ b1 ∧ b1 < 192) ∧ (128 ≤ b2 ∧ b2 < 192) then
          if 2048 ≤ (b - 224) * 4096 + (b1 - 128) * 64 + (b2 - 128) ∧
              ¬(55296 ≤ (b - 224) * 4096 + (b1 - 128) * 64 + (b2 - 128) ∧
                (b - 224) * 4096 + (b1 - 128) * 64 + (b2 - 128) < 57344) then
            some ((b - 224) * 4096 + (b1 - 128) * 64 + (b2 - 128), r)
          else none
        else none
      | _ => none
    else if b < 248 then
      match rest with
      | b1 :: b2 :: b3 :: r =>
        if (128 ≤ b1 ∧ b1 < 192) ∧ (128 ≤ b2 ∧ b2 < 192) ∧
            (128 ≤ b3 ∧ b3 < 192) then
          if 65536 ≤ (b - 240) * 262144 + (b1 - 128) * 4096 +
                (b2 - 128) * 64 + (b3 - 128) ∧
              (b - 240) * 262144 + (b1 - 128) * 4096 +
                (b2 - 128) * 64 + (b3 - 128) < 1114112 then
            some ((b - 240) * 262144 + (b1 - 128) * 4096 +
              (b2 - 128) * 64 + (b3 - 128), r)
          else none
        else none
      | _ => none
    else none

/-- Iterated UTF-8 decoding; each step consumes at least one byte, so a
fuel of the buffer length is always sufficient. -/
def utf8DecLoop : Nat → Bytes → Option Str
  | _, [] => some []
  | 0, _ :: _ => none
  | fuel + 1, b :: rest =>
    match utf8DecodeOne b rest with
    | some p => (utf8DecLoop fuel p.2).map (p.1 :: ·)
    | none => none

/-- Python `b.decode('utf-8')` with strict error handling. -/
def utf8Decode (bs : Bytes) : Option Str := utf8DecLoop bs.length bs

/-- Big-endian value of a byte string, Python `int.from_bytes(b, 'big')`. -/
def fromBytesBE (l : Bytes) : Nat := l.foldl (fun a b => a * 256 + b) 0

/-- Python `n.to_bytes(2, 'big')`: fails (OverflowError) for `n ≥ 2^16`. -/
def toBytes2 (n : Nat) : Option Bytes :=
  if n < 65536 then some [n / 256, n % 256] else none

/-- A Python `str -> int` dictionary: association list in insertion order,
with unique keys. -/
abbrev Dict := List (Str × Nat)

/-- Python `d.get(k)` / `k in d` / `d[k]` on a dict with unique keys. -/
def alookup (k : Str) (d : Dict) : Option Nat :=
  (d.find? (fun p => p.1 == k)).map (·.2)

/-- Python `{v: k for k, v in d.items()}.get(code, "")`: the reverse map is
built in insertion order, so for duplicate values the last pair wins. -/
def revGet (d : Dict) (code : Nat) : Str :=
  match d.reverse.find? (fun p => p.2 == code) with
  | some p => p.1
  | none => []

namespace BH103

/-- Source line 27: `int_to_3bytes(value)`. -/
def int_to_3bytes (v : Nat) : Bytes :=
  [(v >>> 16) &&& 255, (v >>> 8) &&& 255, v &&& 255]

/-- Source line 30: `bytes3_to_int(b)`, taking the three bytes `b[0]`,
`b[1]`, `b[2]` of the sliced argument. -/
def bytes3_to_int (b0 b1 b2 : Nat) : Nat :=
  ((b0 <<< 16) ||| (b1 <<< 8)) ||| b2

/-- Source line 36: `transform_with_pattern(data)`, byte-wise XOR with
`0xFF`. -/
def transform_with_pattern (data : Bytes) : Bytes :=
  data.map (fun b => b ^^^ 255)

/-- Source line 41: `encode_leading_zeros(data)`.  The while loop counts
leading `0x00` bytes, stopping at the end of the data, at the first nonzero
byte, or at 31; that count is `min run 31` where `run` is the length of the
maximal zero prefix. -/
def encode_leading_zeros (data : Bytes) : Bytes :=
  ((min ((data.takeWhile (· = 0)).length) 31 &&& 31) <<< 3) ::
    data.drop (min ((data.takeWhile (· = 0)).length) 31)

/-- Source line 50: `decode_leading_zeros(data)`. -/
def decode_leading_zeros (data : Bytes) : Bytes :=
  match data with
  | [] => []
  | h :: t => List.replicate ((h >>> 3) &&& 31) 0 ++ t

end BH103

namespace BH103

/-- One iteration body of the word-tier loop of
`compress_text_with_dictionary` (source lines 130-145): encode one token of
`re.findall(r'\S+|\s+', sentence)`. -/
def encodeToken (wd : Dict) (t : Str) : Option Bytes :=
  if pyIsSpaceStr t then
    (pyEncodeUtf8 t).bind (fun enc =>
      (toBytes2 enc.length).map (fun l2 => 5 :: (l2 ++ enc)))
  else
    match alookup t wd with
    | some code => some (1 :: int_to_3bytes code)
    | none =>
      (pyEncodeUtf8 t).bind (fun enc =>
        (toBytes2 enc.length).map (fun l2 => 0 :: (l2 ++ enc)))

/-- Sequential concatenation of the bytes produced for each element; any
failure aborts the whole call, as a raised exception would. -/
def concatMapM (f : α → Option Bytes) : List α → Option Bytes
  | [] => some []
  | x :: xs => (f x).bind (fun b => (concatMapM f xs).map (fun bs => b ++ bs))

/-- Source lines 124-145: encode one sentence of
`re.split(r'(?<=[.!?]) +', line)`. -/
def encodeSentence (wd sd : Dict) (s : Str) : Option Bytes :=
  match alookup (pyStrip s) sd with
  | some code => some (2 :: int_to_3bytes code)
  | none => concatMapM (encodeToken wd) (wsTokens s)

/-- Source lines 118-145: encode one line of
`text.splitlines(keepends=True)`. -/
def encodeLine (wd ld sd : Dict) (l : Str) : Option Bytes :=
  match alookup (pyStrip l) ld with
  | some code => some (3 :: int_to_3bytes code)
  | none => concatMapM (encodeSentence wd sd) (sentSplit l)

/-- Source line 115: `compress_text_with_dictionary(text, word_dict,
line_dict, sent_dict)`. -/
def compress_text_with_dictionary (text : Str) (wd ld sd : Dict) :
    Option Bytes :=
  concatMapM (encodeLine wd ld sd) (pySplitlines text)

/-- One iteration of the while loop of `decompress_text_with_dictionary`
(source lines 155-179) after reading the flag byte: returns the string
appended by this iteration and the remaining buffer suffix.  Flag dispatch
follows the source order 1, 0, 2, 3, 5; any other flag byte is consumed
with no output.  For flags 1, 2, 3 the slice `data[i:i+3]` is indexed at
positions 0, 1, 2 by `bytes3_to_int`, raising IndexError (`none`) when
fewer than three bytes remain.  For flags 0 and 5 the length field is
`int.from_bytes(data[i:i+2], 'big')` of the silently truncated slice, and
the payload slice `data[i:i+length]` is silently truncated as well. -/
def dtStep (wd ld sd : Dict) (flag : Nat) (rest : Bytes) :
    Option (Str × Bytes) :=
  if flag = 1 then
    match rest with
    | b0 :: b1 :: b2 :: r => some (revGet wd (bytes3_to_int b0 b1 b2), r)
    | _ => none
  else if flag = 0 then
    (utf8Decode ((rest.drop 2).take (fromBytesBE (rest.take 2)))).map
      (fun s => (s, (rest.drop 2).drop (fromBytesBE (rest.take 2))))
  else if flag = 2 then
    match rest with
    | b0 :: b1 :: b2 :: r => some (revGet sd (bytes3_to_int b0 b1 b2), r)
    | _ => none
  else if flag = 3 then
    match rest with
    | b0 :: b1 :: b2 :: r =>
      some (revGet ld (bytes3_to_int b0 b1 b2) ++ [10], r)
    | _ => none
  else if flag = 5 then
    (utf8Decode ((rest.drop 2).take (fromBytesBE (rest.take 2)))).map
      (fun s => (s, (rest.drop 2).drop (fromBytesBE (rest.take 2))))
  else some ([], rest)

/-- The while loop of `decompress_text_with_dictionary` (source lines
153-180), processing the remaining suffix of the buffer.  Every iteration
consumes the flag byte, so `fuel = data.length` can never run out. -/
def dtLoop (wd ld sd : Dict) : Nat → Bytes → Option Str
  | _, [] => some []
  | 0, _ :: _ => none
  | fuel + 1, flag :: rest =>
    match dtStep wd ld sd flag rest with
    | some p => (dtLoop wd ld sd fuel p.2).map (p.1 ++ ·)
    | none => none

/-- Source line 148: `decompress_text_with_dictionary(data, word_dict,
line_dict, sent_dict)`. -/
def decompress_text_with_dictionary (data : Bytes) (wd ld sd : Dict) :
    Option Str :=
  dtLoop wd ld sd data.length data

end BH103

/-! ### Basic arithmetic and byte-field lemmas -/

theorem and255_eq_mod (x : Nat) : x &&& 255 = x % 256 := by
  have h := Nat.and_pow_two_sub_one_eq_mod x 8
  norm_num at h
  exact h

theorem and31_eq_mod (x : Nat) : x &&& 31 = x % 32 := by
  have h := Nat.and_pow_two_sub_one_eq_mod x 5
  norm_num at h
  exact h

theorem fromBytesBE_pair (n : Nat) : fromBytesBE [n / 256, n % 256] = n := by
  simp [fromBytesBE, List.foldl]
  omega

theorem toBytes2_eq (n : Nat) (h : n < 65536) :
    toBytes2 n = some [n / 256, n % 256] := by
  simp [toBytes2, h]

theorem or_shift_add (a b : Nat) (k : Nat) (hb : b < 2 ^ k) :
    (a <<< k) ||| b = a <<< k + b := by
  have h := Nat.mul_add_lt_is_or hb a
  rw [Nat.shiftLeft_eq, Nat.mul_comm]
  omega

theorem bytes3_roundtrip (code : Nat) (h : code < 16777216) :
    BH103.bytes3_to_int ((code >>> 16) &&& 255) ((code >>> 8) &&& 255)
      (code &&& 255) = code := by
  unfold BH103.bytes3_to_int
  rw [and255_eq_mod, and255_eq_mod, and255_eq_mod,
    Nat.shiftRight_eq_div_pow, Nat.shiftRight_eq_div_pow]
  have h1 : code / 2 ^ 16 % 256 = code / 65536 := by omega
  have h2 : (code / 2 ^ 8 % 256) <<< 8 = code / 256 % 256 * 256 := by
    rw [Nat.shiftLeft_eq]; norm_num
  rw [h1, h2]
  have h3 : code / 256 % 256 * 256 < 2 ^ 16 := by omega
  have h4 : (code / 65536) <<< 16 ||| code / 256 % 256 * 256 =
      (code / 65536) <<< 16 + code / 256 % 256 * 256 :=
    or_shift_add _ _ 16 h3
  have h5 : (code / 65536) <<< 16 + code / 256 % 256 * 256 =
      ((code / 65536 * 256 + code / 256 % 256)) <<< 8 := by
    rw [Nat.shiftLeft_eq, Nat.shiftLeft_eq]; ring
  have h6 : code % 256 < 2 ^ 8 := by omega
  rw [h4, h5, or_shift_add _ _ 8 h6, Nat.shiftLeft_eq]
  omega

/-! ### UTF-8 round trip -/

theorem utf8EncodeChar_ne_nil (c : Nat) : utf8EncodeChar c ≠ [] := by
  unfold utf8EncodeChar
  split_ifs <;> simp

theorem utf8DecodeOne_encode (c : Nat) (h : validCp c) (bs : Bytes)
    (b : Nat) (r : Bytes) (he : utf8EncodeChar c ++ bs = b :: r) :
    utf8DecodeOne b r = some (c, bs) := by
  obtain ⟨h1, h2⟩ := h
  unfold utf8EncodeChar at he
  by_cases hc1 : c < 128
  · rw [if_pos hc1] at he
    simp only [List.cons_append, List.nil_append, List.cons.injEq] at he
    obtain ⟨rfl, rfl⟩ := he
    unfold utf8DecodeOne
    simp [hc1]
  · by_cases hc2 : c < 2048
    · rw [if_neg hc1, if_pos hc2] at he
      simp only [List.cons_append, List.nil_append, List.cons.injEq] at he
      obtain ⟨rfl, rfl⟩ := he
      unfold utf8DecodeOne
      have e1 : ¬ 192 + c / 64 < 128 := by omega
      have e2 : ¬ 192 + c / 64 < 192 := by omega
      have e3 : 192 + c / 64 < 224 := by omega
      rw [if_neg e1, if_neg e2, if_pos e3]
      have e4 : 128 ≤ 128 + c % 64 ∧ 128 + c % 64 < 192 := by omega
      have e5 : 128 ≤ (192 + c / 64 - 192) * 64 + (128 + c % 64 - 128) := by
        omega
      simp only [if_pos e4, if_pos e5, Option.some.injEq, Prod.mk.injEq]
      exact ⟨by omega, by simp⟩
    · by_cases hc3 : c < 65536
      · rw [if_neg hc1, if_neg hc2, if_pos hc3] at he
        simp only [List.cons_append, List.nil_append, List.cons.injEq] at he
        obtain ⟨rfl, rfl⟩ := he
        unfold utf8DecodeOne
        have e1 : ¬ 224 + c / 4096 < 128 := by omega
        have e2 : ¬ 224 + c / 4096 < 192 := by omega
        have e3 : ¬ 224 + c / 4096 < 224 := by omega
        have e4 : 224 + c / 4096 < 240 := by omega
        rw [if_neg e1, if_neg e2, if_neg e3, if_pos e4]
        have e5 : (128 ≤ 128 + c / 64 % 64 ∧ 128 + c / 64 % 64 < 192) ∧
            (128 ≤ 128 + c % 64 ∧ 128 + c % 64 < 192) := by omega
        have e6 : 2048 ≤ (224 + c / 4096 - 224) * 4096 +
              (128 + c / 64 % 64 - 128) * 64 + (128 + c % 64 - 128) ∧
            ¬(55296 ≤ (224 + c / 4096 - 224) * 4096 +
              (128 + c / 64 % 64 - 128) * 64 + (128 + c % 64 - 128) ∧
              (224 + c / 4096 - 224) * 4096 +
              (128 + c / 64 % 64 - 128) * 64 + (128 + c % 64 - 128) <
                57344) := by omega
        simp only [if_pos e5, if_pos e6, Option.some.injEq, Prod.mk.injEq]
        exact ⟨by omega, by simp⟩
      · rw [if_neg hc1, if_neg hc2, if_neg hc3] at he
        simp only [List.cons_append, List.nil_append, List.cons.injEq] at he
        obtain ⟨rfl, rfl⟩ := he
        unfold utf8DecodeOne
        have e1 : ¬ 240 + c / 262144 < 128 := by omega
        have e2 : ¬ 240 + c / 262144 < 192 := by omega
        have e3 : ¬ 240 + c / 262144 < 224 := by omega
        have e4 : ¬ 240 + c / 262144 < 240 := by omega
        have e5 : 240 + c / 262144 < 248 := by omega
        rw [if_neg e1, if_neg e2, if_neg e3, if_neg e4, if_pos e5]
        have e6 : (128 ≤ 128 + c / 4096 % 64 ∧ 128 + c / 4096 % 64 < 192) ∧
            (128 ≤ 128 + c / 64 % 64 ∧ 128 + c / 64 % 64 < 192) ∧
            (128 ≤ 128 + c % 64 ∧ 128 + c % 64 < 192) := by omega
        have e7 : 65536 ≤ (240 + c / 262144 - 240) * 262144 +
              (128 + c / 4096 % 64 - 128) * 4096 +
              (128 + c / 64 % 64 - 128) * 64 + (128 + c % 64 - 128) ∧
            (240 + c / 262144 - 240) * 262144 +
              (128 + c / 4096 % 64 - 128) * 4096 +
              (128 + c / 64 % 64 - 128) * 64 + (128 + c % 64 - 128) <
              1114112 := by omega
        simp only [if_pos e6, if_pos e7, Option.some.injEq, Prod.mk.injEq]
        exact ⟨by omega, by simp⟩

set_option maxHeartbeats 1000000 in
theorem utf8DecodeOne_shrinks (b : Nat) (rest : Bytes) (p : Nat × Bytes)
    (h : utf8DecodeOne b rest = some p) : p.2.length ≤ rest.length := by
  unfold utf8DecodeOne at h
  split_ifs at h with h1 h2 h3 h4 h5
  · cases h; exact Nat.le_refl _
  · split at h
    · split_ifs at h with g1 g2
      simp only [Option.some.injEq] at h
      subst h
      simp
      try omega
    · exact Option.noConfusion h
  · split at h
    · split_ifs at h with g1 g2
      simp only [Option.some.injEq] at h
      subst h
      simp
      try omega
    · exact Option.noConfusion h
  · split at h
    · split_ifs at h with g1 g2
      simp only [Option.some.injEq] at h
      subst h
      simp
      try omega
    · exact Option.noConfusion h

theorem utf8DecLoop_congr (f1 f2 : Nat) (bs : Bytes)
    (h1 : bs.length ≤ f1) (h2 : bs.length ≤ f2) :
    utf8DecLoop f1 bs = utf8DecLoop f2 bs := by
  induction f1 generalizing f2 bs with
  | zero =>
    have : bs = [] := List.length_eq_zero.mp (Nat.le_zero.mp h1)
    subst this
    cases f2 <;> simp [utf8DecLoop]
  | succ f ih =>
    cases bs with
    | nil => cases f2 <;> simp [utf8DecLoop]
    | cons b rest =>
      cases f2 with
      | zero => simp at h2
      | succ f2' =>
        simp only [utf8DecLoop]
        cases hd : utf8DecodeOne b rest with
        | none => rfl
        | some p =>
          have hs := utf8DecodeOne_shrinks b rest p hd
          simp only [List.length_cons] at h1 h2
          show (utf8DecLoop f p.2).map (fun x => p.1 :: x) =
            (utf8DecLoop f2' p.2).map (fun x => p.1 :: x)
          rw [ih f2' p.2 (by omega) (by omega)]

theorem utf8DecLoop_fuel (fuel : Nat) (bs : Bytes) (h : bs.length ≤ fuel) :
    utf8DecLoop fuel bs = utf8Decode bs :=
  utf8DecLoop_congr fuel bs.length bs h (Nat.le_refl _)

theorem utf8_str_roundtrip (s : Str) (bs : Bytes)
    (h : pyEncodeUtf8 s = some bs) (tail : Bytes) :
    utf8Decode (bs ++ tail) = (utf8Decode tail).map (s ++ ·) := by
  induction s generalizing bs with
  | nil =>
    simp only [pyEncodeUtf8, Option.some.injEq] at h
    subst h
    simp only [List.nil_append]
    cases utf8Decode tail <;> simp
  | cons c cs ih =>
    simp only [pyEncodeUtf8] at h
    by_cases hv : validCp c
    swap
    · rw [if_neg hv] at h
      exact Option.noConfusion h
    · rw [if_pos hv] at h
      cases he : pyEncodeUtf8 cs with
      | none => rw [he] at h; simp at h
      | some bs' =>
        rw [he] at h
        simp only [Option.map_some', Option.some.injEq] at h
        subst h
        cases hec : utf8EncodeChar c with
        | nil => exact absurd hec (utf8EncodeChar_ne_nil c)
        | cons b r =>
          simp only [List.cons_append, List.append_assoc]
          have hone : utf8DecodeOne b (r ++ (bs' ++ tail)) =
              some (c, bs' ++ tail) := by
            apply utf8DecodeOne_encode c hv
            rw [hec]; simp
          have lhs : utf8Decode (b :: (r ++ (bs' ++ tail))) =
              (utf8Decode (bs' ++ tail)).map (fun x => c :: x) := by
            unfold utf8Decode
            simp only [List.length_cons, utf8DecLoop, hone]
            rw [utf8DecLoop_congr ((r ++ (bs' ++ tail)).length)
              ((bs' ++ tail).length) (bs' ++ tail) (by simp) (Nat.le_refl _)]
          rw [lhs, ih bs' he]
          cases utf8Decode tail <;> simp

theorem utf8_exact_roundtrip (s : Str) (bs : Bytes)
    (h : pyEncodeUtf8 s = some bs) : utf8Decode bs = some s := by
  have := utf8_str_roundtrip s bs h []
  simpa [utf8Decode, utf8DecLoop] using this

/-! ### Dictionary lookup lemmas -/

/-- Well-formed dictionary: unique keys, unique IDs (as `load_dictionary`
produces, each loaded entry getting a fresh index), and every ID below
`2^24` so that it fits the 3-byte field. -/
def DictWF (d : Dict) : Prop :=
  (d.map (·.1)).Nodup ∧ (d.map (·.2)).Nodup ∧ ∀ p ∈ d, p.2 < 16777216

instance (d : Dict) : Decidable (DictWF d) := by
  unfold DictWF; infer_instance

theorem alookup_mem (k : Str) (d : Dict) (v : Nat)
    (h : alookup k d = some v) : (k, v) ∈ d := by
  unfold alookup at h
  cases hf : d.find? (fun p => p.1 == k) with
  | none => rw [hf] at h; simp at h
  | some q =>
    rw [hf] at h
    simp only [Option.map_some', Option.some.injEq] at h
    have hmem := List.mem_of_find?_eq_some hf
    have hkey := List.find?_some hf
    simp only [beq_iff_eq] at hkey
    have : q = (k, v) := by
      cases q
      simp_all
    rw [this] at hmem
    exact hmem

theorem revGet_alookup (d : Dict) (k : Str) (v : Nat) (hwf : DictWF d)
    (h : alookup k d = some v) : revGet d v = k := by
  obtain ⟨hk, hv, hb⟩ := hwf
  have hmem : (k, v) ∈ d := alookup_mem k d v h
  unfold revGet
  cases hf : d.reverse.find? (fun p => p.2 == v) with
  | none =>
    exfalso
    have : ∃ p, p ∈ d.reverse ∧ (fun p : Str × Nat => p.2 == v) p := by
      exact ⟨(k, v), List.mem_reverse.mpr hmem, by simp⟩
    rw [List.find?_eq_none] at hf
    obtain ⟨p, hp1, hp2⟩ := this
    exact absurd hp2 (by simpa using hf p hp1)
  | some q =>
    have hqmem : q ∈ d := List.mem_reverse.mp (List.mem_of_find?_eq_some hf)
    have hqval : q.2 = v := by
      have := List.find?_some hf
      simpa using this
    have hinj := List.inj_on_of_nodup_map hv
    have : q = (k, v) := hinj hqmem hmem (by simpa using hqval)
    rw [this]

theorem revGet_not_mem (d : Dict) (v : Nat)
    (h : v ∉ d.map (·.2)) : revGet d v = [] := by
  unfold revGet
  cases hf : d.reverse.find? (fun p => p.2 == v) with
  | none => rfl
  | some q =>
    exfalso
    have hqmem : q ∈ d := List.mem_reverse.mp (List.mem_of_find?_eq_some hf)
    have hqval : q.2 = v := by
      have := List.find?_some hf
      simpa using this
    exact h (List.mem_map.mpr ⟨q, hqmem, hqval⟩)

theorem alookup_values (k : Str) (d : Dict) (v : Nat)
    (h : alookup k d = some v) : v ∈ d.map (·.2) :=
  List.mem_map.mpr ⟨(k, v), alookup_mem k d v h, rfl⟩

/-! ### Leading-zero header round trip -/

theorem takeWhile_zero_eq_replicate (data : Bytes) :
    data.takeWhile (· = 0) =
      List.replicate ((data.takeWhile (· = 0)).length) 0 := by
  apply List.eq_replicate_of_mem
  intro b hb
  have := List.mem_takeWhile_imp hb
  simpa using this

theorem take_of_zero_run (data : Bytes) (count : Nat)
    (h : count ≤ (data.takeWhile (· = 0)).length) :
    data.take count = List.replicate count 0 := by
  conv_lhs => rw [← List.takeWhile_append_dropWhile (· = 0) data]
  rw [List.take_append_eq_append_take]
  have h0 : count - (data.takeWhile (· = 0)).length = 0 := by omega
  rw [h0, List.take_zero, List.append_nil]
  conv_lhs => rw [takeWhile_zero_eq_replicate data]
  rw [List.take_replicate]
  congr 1
  omega

theorem decode_encode_leading_zeros (data : Bytes) :
    BH103.decode_leading_zeros (BH103.encode_leading_zeros data) = data := by
  have hmin : min ((data.takeWhile (· = 0)).length) 31 ≤
      (data.takeWhile (· = 0)).length := Nat.min_le_left _ _
  unfold BH103.encode_leading_zeros BH103.decode_leading_zeros
  show List.replicate
      ((((min ((data.takeWhile (· = 0)).length) 31 &&& 31) <<< 3) >>> 3) &&&
        31) 0 ++
      data.drop (min ((data.takeWhile (· = 0)).length) 31) = data
  have h1 : min ((data.takeWhile (· = 0)).length) 31 &&& 31 =
      min ((data.takeWhile (· = 0)).length) 31 := by
    rw [and31_eq_mod]; omega
  rw [h1]
  have h2 : ((min ((data.takeWhile (· = 0)).length) 31 <<< 3) >>> 3) &&& 31 =
      min ((data.takeWhile (· = 0)).length) 31 := by
    rw [Nat.shiftLeft_eq, Nat.shiftRight_eq_div_pow, and31_eq_mod]
    have e : (2 : Nat) ^ 3 = 8 := rfl
    rw [e]
    omega
  rw [h2, ← take_of_zero_run data _ hmin, List.take_append_drop]

namespace BH104

/-- Source line 52: `SmartCompressor.reversible_transform(data)`, byte-wise
XOR with `0xAA` (the tqdm wrapper only reports progress). -/
def reversible_transform (data : Bytes) : Bytes :=
  data.map (fun b => b ^^^ 170)

/-- Source line 105: `transform_with_pattern(data, chunk_size=4)`: XOR with
`0xFF` applied chunk by chunk of 4 bytes. -/
def transform_with_pattern : Bytes → Bytes
  | [] => []
  | b :: rest =>
    ((b :: rest).take 4).map (fun x => x ^^^ 255) ++
      transform_with_pattern ((b :: rest).drop 4)
termination_by data => data.length
decreasing_by simp; omega

/-- Source line 199: `DictionaryCompressor.sha256_hash(data)`, the first 8
bytes of the SHA-256 digest of the UTF-8 encoding.  The hash itself is an
external cryptographic collaborator, so it is a parameter `sha` of every
definition that uses it. -/
abbrev Sha8 := Str → Bytes

/-- Python `n.to_bytes(8, 'big')`: fails (OverflowError) for `n ≥ 2^64`. -/
def toBytes8 (n : Nat) : Option Bytes :=
  if n < 18446744073709551616 then
    some [n / 72057594037927936 % 256, n / 281474976710656 % 256,
      n / 1099511627776 % 256, n / 4294967296 % 256, n / 16777216 % 256,
      n / 65536 % 256, n / 256 % 256, n % 256]
  else none

/-- Source line 203: `DictionaryCompressor.xor_prime_fallback(word)`: the
sum of the character codes, XOR 2147483647, as 8 big-endian bytes. -/
def xor_prime_fallback (word : Str) : Option Bytes :=
  toBytes8 (word.sum ^^^ 2147483647)

/-- Python `line.split()` with no argument: the maximal non-whitespace runs
of the line, in order (the whitespace runs of the alternating
decomposition are discarded, and no empty fields are produced). -/
def pySplitWs (s : Str) : List Str :=
  (wsTokens s).filter (fun t => !pyIsSpaceStr t)

/-- Worker for `re.split(r'[.!?]', line)`: split at every single
end-of-sentence character, keeping empty fields. -/
def puncSplitAux : Str → Str → List Str
  | [], acc => [acc.reverse]
  | c :: rest, acc =>
    if isEOS c then acc.reverse :: puncSplitAux rest []
    else puncSplitAux rest (c :: acc)

/-- Python `re.split(r'[.!?]', line)`. -/
def puncSplit (s : Str) : List Str := puncSplitAux s []

/-- Source line 210: `DictionaryCompressor.match_in_dictionary(line)`.  The
combined dictionary is a `set` of strings, modelled as the list of its
elements in iteration order; `sha` is the external 8-byte hash. -/
def match_in_dictionary (sha : Sha8) (dict : List Str) (line : Str) :
    Option (Bytes × Bool) :=
  if (pyStrip line) ∈ dict then some (sha (pyStrip line), true)
  else
    match (pySplitWs (pyStrip line)).find? (fun w => dict.contains w) with
    | some w => some (sha w, true)
    | none =>
      match (puncSplit (pyStrip line)).find?
          (fun s => !(pyStrip s).isEmpty && dict.contains (pyStrip s)) with
      | some s => some (sha (pyStrip s), true)
      | none => (xor_prime_fallback (pyStrip line)).map (fun e => (e, false))

/-- Source lines 233-237: the per-line body of
`DictionaryCompressor.compress_file`: flag byte, count of leading zero
bytes of the 8-byte code, then the code with its leading zeros stripped. -/
def compressLine (sha : Sha8) (dict : List Str) (line : Str) :
    Option Bytes :=
  (match_in_dictionary sha dict line).map (fun e =>
    (if e.2 then 1 else 0) ::
      (e.1.length - (e.1.dropWhile (· = 0)).length) ::
        e.1.dropWhile (· = 0))

/-- Source lines 228-239: `DictionaryCompressor.compress_file` on the list
of lines of the input file (the trailing `paq.compress` call is the
external backend and is outside the modelled core). -/
def compress_file_data (sha : Sha8) (dict : List Str) (lines : List Str) :
    Option Bytes :=
  BH103.concatMapM (compressLine sha dict) lines

/-- Python indexing `l[i]` with negative-index wrapping; out of range
raises IndexError (`none`). -/
def pyIdx (l : Bytes) (i : Int) : Option Nat :=
  if 0 ≤ i then l.get? i.toNat
  else if 0 ≤ (l.length : Int) + i then l.get? ((l.length : Int) + i).toNat
  else none

/-- Clamp one Python slice bound to `[0, len]`, with negative wrapping. -/
def pySliceIdx (len : Nat) (i : Int) : Nat :=
  (max 0 (min (if i < 0 then (len : Int) + i else i) (len : Int))).toNat

/-- Python slicing `l[a:b]` (step 1). -/
def pySlice (l : Bytes) (a b : Int) : Bytes :=
  (l.take (pySliceIdx l.length b)).drop (pySliceIdx l.length a)

/-- Decimal representation of a nonnegative integer, as Python `str(n)`
inside the `f"[FALLBACK:{n}]"` format string. -/
def natToDec (n : Nat) : Str := pystr (Nat.repr n)

/-- The while loop of `DictionaryCompressor.decompress_file` (source lines
257-277) on the post-`paq.decompress` buffer.  The position `i` is an
integer: `chunk_len = 8 - lz` can be negative for corrupt headers, moving
`i` backwards, so the loop need not terminate; `fuel` bounds the number of
iterations and `none` also stands for a run that exceeds it. -/
def ddLoop (sha : Sha8) (dict : List Str) (data : Bytes) :
    Nat → Int → Option (List Str)
  | 0, i => if i < (data.length : Int) then none else some []
  | fuel + 1, i =>
    if i < (data.length : Int) then
      (pyIdx data i).bind (fun flag =>
        (pyIdx data (i + 1)).bind (fun lz =>
          (ddLoop sha dict data fuel (i + 2 + (8 - (lz : Int)))).map
            (fun rest =>
              (if flag = 1 then
                match dict.find? (fun w =>
                    sha w == List.replicate lz 0 ++
                      (pySlice data i (i + 2 + (8 - (lz : Int)))).drop 2) with
                | some w => w
                | none => pystr "[UNKNOWN]"
              else
                pystr "[FALLBACK:" ++
                  natToDec (fromBytesBE (List.replicate lz 0 ++
                    (pySlice data i (i + 2 + (8 - (lz : Int)))).drop 2)) ++
                  pystr "]") :: rest)))
    else some []

end BH104

/-! ### XOR transform lemmas -/

theorem transform104_eq_map (data : Bytes) :
    BH104.transform_with_pattern data = data.map (fun b => b ^^^ 255) := by
  induction data using BH104.transform_with_pattern.induct with
  | case1 => simp [BH104.transform_with_pattern]
  | case2 b rest ih =>
    rw [BH104.transform_with_pattern, ih, ← List.map_append,
      List.take_append_drop]

/-! ### Concatenation of the segmenters -/

/-- Concatenation of a list of strings, the inverse reading of a
segmentation. -/
def joinAll (ls : List Str) : Str := ls.foldr (· ++ ·) []

theorem joinAll_nil : joinAll [] = [] := rfl

theorem joinAll_cons (x : Str) (ls : List Str) :
    joinAll (x :: ls) = x ++ joinAll ls := rfl

theorem splitlinesAux_join (s acc : Str) :
    joinAll (splitlinesAux s acc) = acc.reverse ++ s := by
  induction s, acc using splitlinesAux.induct with
  | case1 acc h =>
    rw [splitlinesAux, if_pos h]
    have : acc = [] := List.isEmpty_iff.mp h
    subst this
    simp [joinAll]
  | case2 acc h =>
    rw [splitlinesAux, if_neg h]
    simp [joinAll]
  | case3 rest acc ih =>
    rw [splitlinesAux, joinAll_cons, ih]
    simp
  | case4 c rest acc hx hbr ih =>
    rw [splitlinesAux]
    rotate_left
    · exact hx
    rw [if_pos hbr, joinAll_cons, ih]
    simp
  | case5 c rest acc hx hbr ih =>
    rw [splitlinesAux]
    rotate_left
    · exact hx
    rw [if_neg hbr, ih]
    simp

theorem pySplitlines_join (s : Str) : joinAll (pySplitlines s) = s := by
  have := splitlinesAux_join s []
  simpa [pySplitlines] using this

theorem wsAux_join (s acc : Str) :
    joinAll (wsAux s acc) = acc.reverse ++ s := by
  induction s, acc using wsAux.induct with
  | case1 acc h =>
    rw [wsAux, if_pos h]
    have : acc = [] := List.isEmpty_iff.mp h
    subst this
    simp [joinAll]
  | case2 acc h =>
    rw [wsAux, if_neg h]
    simp [joinAll]
  | case3 c rest ih =>
    rw [wsAux, ih]
    simp
  | case4 c rest a acc h ih =>
    rw [wsAux, if_pos h, ih]
    simp
  | case5 c rest a acc h ih =>
    rw [wsAux, if_neg h, joinAll_cons, ih]
    simp

theorem wsTokens_join (s : Str) : joinAll (wsTokens s) = s := by
  have := wsAux_join s []
  simpa [wsTokens] using this

/-! ### Decoder loop lemmas for Black_Hole_103 -/

namespace BH103

theorem dtStep_shrinks (wd ld sd : Dict) (flag : Nat) (rest : Bytes)
    (p : Str × Bytes) (h : dtStep wd ld sd flag rest = some p) :
    p.2.length ≤ rest.length := by
  unfold dtStep at h
  split_ifs at h with h1 h2 h3 h4 h5
  · split at h
    · simp only [Option.some.injEq] at h
      subst h
      simp
      try omega
    · exact Option.noConfusion h
  · cases hu : utf8Decode ((rest.drop 2).take (fromBytesBE (rest.take 2)))
      with
    | none => rw [hu] at h; exact Option.noConfusion h
    | some s =>
      rw [hu] at h
      simp only [Option.map_some', Option.some.injEq] at h
      subst h
      simp
      try omega
  · split at h
    · simp only [Option.some.injEq] at h
      subst h
      simp
      try omega
    · exact Option.noConfusion h
  · split at h
    · simp only [Option.some.injEq] at h
      subst h
      simp
      try omega
    · exact Option.noConfusion h
  · cases hu : utf8Decode ((rest.drop 2).take (fromBytesBE (rest.take 2)))
      with
    | none => rw [hu] at h; exact Option.noConfusion h
    | some s =>
      rw [hu] at h
      simp only [Option.map_some', Option.some.injEq] at h
      subst h
      simp
      try omega
  · simp only [Option.some.injEq] at h
    subst h
    exact Nat.le_refl _

theorem dtLoop_congr (wd ld sd : Dict) (f1 f2 : Nat) (bs : Bytes)
    (h1 : bs.length ≤ f1) (h2 : bs.length ≤ f2) :
    dtLoop wd ld sd f1 bs = dtLoop wd ld sd f2 bs := by
  induction f1 generalizing f2 bs with
  | zero =>
    have : bs = [] := List.length_eq_zero.mp (Nat.le_zero.mp h1)
    subst this
    cases f2 <;> simp [dtLoop]
  | succ f ih =>
    cases bs with
    | nil => cases f2 <;> simp [dtLoop]
    | cons flag rest =>
      cases f2 with
      | zero => simp at h2
      | succ f2' =>
        simp only [dtLoop]
        cases hd : dtStep wd ld sd flag rest with
        | none => rfl
        | some p =>
          have hs := dtStep_shrinks wd ld sd flag rest p hd
          simp only [List.length_cons] at h1 h2
          show (dtLoop wd ld sd f p.2).map (fun x => p.1 ++ x) =
            (dtLoop wd ld sd f2' p.2).map (fun x => p.1 ++ x)
          rw [ih f2' p.2 (by omega) (by omega)]

theorem dtLoop_fuel (wd ld sd : Dict) (fuel : Nat) (bs : Bytes)
    (h : bs.length ≤ fuel) :
    dtLoop wd ld sd fuel bs = decompress_text_with_dictionary bs wd ld sd :=
  dtLoop_congr wd ld sd fuel bs.length bs h (Nat.le_refl _)

theorem decompress_step (wd ld sd : Dict) (flag : Nat) (rest : Bytes)
    (s : Str) (r : Bytes) (h : dtStep wd ld sd flag rest = some (s, r)) :
    decompress_text_with_dictionary (flag :: rest) wd ld sd =
      (decompress_text_with_dictionary r wd ld sd).map (s ++ ·) := by
  unfold decompress_text_with_dictionary
  simp only [List.length_cons, dtLoop, h]
  rw [dtLoop_congr wd ld sd rest.length r.length r
    (dtStep_shrinks wd ld sd flag rest (s, r) h) (Nat.le_refl _)]

end BH103

namespace BH103

theorem dtStep_flag1 (wd ld sd : Dict) (b0 b1 b2 : Nat) (r : Bytes) :
    dtStep wd ld sd 1 (b0 :: b1 :: b2 :: r) =
      some (revGet wd (bytes3_to_int b0 b1 b2), r) := rfl

theorem dtStep_flag2 (wd ld sd : Dict) (b0 b1 b2 : Nat) (r : Bytes) :
    dtStep wd ld sd 2 (b0 :: b1 :: b2 :: r) =
      some (revGet sd (bytes3_to_int b0 b1 b2), r) := rfl

theorem dtStep_flag3 (wd ld sd : Dict) (b0 b1 b2 : Nat) (r : Bytes) :
    dtStep wd ld sd 3 (b0 :: b1 :: b2 :: r) =
      some (revGet ld (bytes3_to_int b0 b1 b2) ++ [10], r) := rfl

theorem dtStep_flag0 (wd ld sd : Dict) (rest : Bytes) :
    dtStep wd ld sd 0 rest =
      (utf8Decode ((rest.drop 2).take (fromBytesBE (rest.take 2)))).map
        (fun s => (s, (rest.drop 2).drop (fromBytesBE (rest.take 2)))) := rfl

theorem dtStep_flag5 (wd ld sd : Dict) (rest : Bytes) :
    dtStep wd ld sd 5 rest =
      (utf8Decode ((rest.drop 2).take (fromBytesBE (rest.take 2)))).map
        (fun s => (s, (rest.drop 2).drop (fromBytesBE (rest.take 2)))) := rfl

theorem dtStep_other (wd ld sd : Dict) (flag : Nat) (rest : Bytes)
    (h0 : flag ≠ 0) (h1 : flag ≠ 1) (h2 : flag ≠ 2) (h3 : flag ≠ 3)
    (h5 : flag ≠ 5) : dtStep wd ld sd flag rest = some ([], rest) := by
  unfold dtStep
  simp [h0, h1, h2, h3, h5]

/-- A literal token (flags 0 and 5 share one payload layout): the explicit
length field followed by the UTF-8 bytes decodes back to the token. -/
theorem decode_literal (wd ld sd : Dict) (flag : Nat) (t : Str)
    (enc : Bytes) (r : Bytes) (hf : flag = 0 ∨ flag = 5)
    (he : pyEncodeUtf8 t = some enc) (_hlt : enc.length < 65536) :
    decompress_text_with_dictionary
        (flag :: enc.length / 256 :: enc.length % 256 :: (enc ++ r))
        wd ld sd =
      (decompress_text_with_dictionary r wd ld sd).map (t ++ ·) := by
  apply decompress_step
  have hstep : dtStep wd ld sd flag
      (enc.length / 256 :: enc.length % 256 :: (enc ++ r)) =
      (utf8Decode (((enc.length / 256 :: enc.length % 256 :: (enc ++ r)).drop
          2).take (fromBytesBE ((enc.length / 256 :: enc.length % 256 ::
          (enc ++ r)).take 2)))).map
        (fun s => (s, ((enc.length / 256 :: enc.length % 256 ::
          (enc ++ r)).drop 2).drop (fromBytesBE ((enc.length / 256 ::
          enc.length % 256 :: (enc ++ r)).take 2)))) := by
    rcases hf with rfl | rfl
    · exact dtStep_flag0 wd ld sd _
    · exact dtStep_flag5 wd ld sd _
  rw [hstep]
  have htake : (enc.length / 256 :: enc.length % 256 :: (enc ++ r)).take 2 =
      [enc.length / 256, enc.length % 256] := rfl
  have hdrop : (enc.length / 256 :: enc.length % 256 :: (enc ++ r)).drop 2 =
      enc ++ r := rfl
  rw [htake, hdrop, fromBytesBE_pair, List.take_left, List.drop_left,
    utf8_exact_roundtrip t enc he]
  rfl

theorem decode_token (wd ld sd : Dict) (hw : DictWF wd) (t : Str)
    (bt r : Bytes) (h : encodeToken wd t = some bt) :
    decompress_text_with_dictionary (bt ++ r) wd ld sd =
      (decompress_text_with_dictionary r wd ld sd).map (t ++ ·) := by
  unfold encodeToken at h
  split_ifs at h with hsp
  · cases he : pyEncodeUtf8 t with
    | none => rw [he] at h; exact Option.noConfusion h
    | some enc =>
      rw [he] at h
      simp only [Option.some_bind] at h
      cases hl : toBytes2 enc.length with
      | none => rw [hl] at h; exact Option.noConfusion h
      | some l2 =>
        rw [hl] at h
        simp only [Option.map_some', Option.some.injEq] at h
        unfold toBytes2 at hl
        split_ifs at hl with hlt
        simp only [Option.some.injEq] at hl
        subst hl
        subst h
        have hx : (5 :: ([enc.length / 256, enc.length % 256] ++ enc)) ++ r =
            5 :: enc.length / 256 :: enc.length % 256 :: (enc ++ r) := by
          simp
        rw [hx]
        exact decode_literal wd ld sd 5 t enc r (Or.inr rfl) he hlt
  · cases hlook : alookup t wd with
    | some code =>
      rw [hlook] at h
      simp only [Option.some.injEq] at h
      subst h
      have hx : (1 :: int_to_3bytes code) ++ r =
          1 :: ((code >>> 16) &&& 255) :: ((code >>> 8) &&& 255) ::
            (code &&& 255) :: r := rfl
      rw [hx]
      apply decompress_step
      rw [dtStep_flag1]
      have hmem := alookup_mem t wd code hlook
      have hlt : code < 16777216 := hw.2.2 (t, code) hmem
      rw [bytes3_roundtrip code hlt, revGet_alookup wd t code hw hlook]
    | none =>
      rw [hlook] at h
      cases he : pyEncodeUtf8 t with
      | none => rw [he] at h; exact Option.noConfusion h
      | some enc =>
        rw [he] at h
        simp only [Option.some_bind] at h
        cases hl : toBytes2 enc.length with
        | none => rw [hl] at h; exact Option.noConfusion h
        | some l2 =>
          rw [hl] at h
          simp only [Option.map_some', Option.some.injEq] at h
          unfold toBytes2 at hl
          split_ifs at hl with hlt
          simp only [Option.some.injEq] at hl
          subst hl
          subst h
          have hx : (0 :: ([enc.length / 256, enc.length % 256] ++ enc)) ++
              r = 0 :: enc.length / 256 :: enc.length % 256 ::
                (enc ++ r) := by
            simp
          rw [hx]
          exact decode_literal wd ld sd 0 t enc r (Or.inl rfl) he hlt

end BH103

namespace BH103

theorem decode_tokens (wd ld sd : Dict) (hw : DictWF wd) (ts : List Str)
    (bs r : Bytes) (h : concatMapM (encodeToken wd) ts = some bs) :
    decompress_text_with_dictionary (bs ++ r) wd ld sd =
      (decompress_text_with_dictionary r wd ld sd).map (joinAll ts ++ ·) := by
  induction ts generalizing bs with
  | nil =>
    simp only [concatMapM, Option.some.injEq] at h
    subst h
    simp only [List.nil_append, joinAll_nil]
    cases decompress_text_with_dictionary r wd ld sd <;> simp
  | cons t ts ih =>
    simp only [concatMapM] at h
    cases hbt : encodeToken wd t with
    | none => rw [hbt] at h; exact Option.noConfusion h
    | some bt =>
      rw [hbt] at h
      simp only [Option.some_bind] at h
      cases hbs : concatMapM (encodeToken wd) ts with
      | none => rw [hbs] at h; exact Option.noConfusion h
      | some bs' =>
        rw [hbs] at h
        simp only [Option.map_some', Option.some.injEq] at h
        subst h
        rw [List.append_assoc, decode_token wd ld sd hw t bt (bs' ++ r) hbt,
          ih bs' hbs, joinAll_cons]
        cases decompress_text_with_dictionary r wd ld sd <;> simp

/-- The conditions under which one line of the text survives the encode
and decode round trip: a line whose stripped form hits the line dictionary
must be exactly its stripped form plus a line feed (the decoder appends
`"\n"`); a line that misses the line dictionary must not be split by the
sentence regex (the separator spaces are dropped irrecoverably), and if its
stripped form hits the sentence dictionary the line must equal its stripped
form (the decoder emits the dictionary entry verbatim). -/
def LineOK (ld sd : Dict) (l : Str) : Prop :=
  ((alookup (pyStrip l) ld).isSome → l = pyStrip l ++ [10]) ∧
  (alookup (pyStrip l) ld = none →
    sentSplit l = [l] ∧ ((alookup (pyStrip l) sd).isSome → l = pyStrip l))

instance (ld sd : Dict) (l : Str) : Decidable (LineOK ld sd l) := by
  unfold LineOK; infer_instance

theorem decode_line (wd ld sd : Dict) (hw : DictWF wd) (hl : DictWF ld)
    (hs : DictWF sd) (l : Str) (hok : LineOK ld sd l) (bl r : Bytes)
    (h : encodeLine wd ld sd l = some bl) :
    decompress_text_with_dictionary (bl ++ r) wd ld sd =
      (decompress_text_with_dictionary r wd ld sd).map (l ++ ·) := by
  unfold encodeLine at h
  cases hld : alookup (pyStrip l) ld with
  | some code =>
    rw [hld] at h
    simp only [Option.some.injEq] at h
    subst h
    have hline : l = pyStrip l ++ [10] := hok.1 (by rw [hld]; rfl)
    have hx : (3 :: int_to_3bytes code) ++ r =
        3 :: ((code >>> 16) &&& 255) :: ((code >>> 8) &&& 255) ::
          (code &&& 255) :: r := rfl
    rw [hx]
    apply decompress_step
    rw [dtStep_flag3]
    have hmem := alookup_mem (pyStrip l) ld code hld
    have hlt : code < 16777216 := hl.2.2 (pyStrip l, code) hmem
    rw [bytes3_roundtrip code hlt, revGet_alookup ld (pyStrip l) code hl hld,
      ← hline]
  | none =>
    rw [hld] at h
    obtain ⟨hss, hsent⟩ := hok.2 hld
    rw [hss] at h
    simp only [concatMapM] at h
    cases hb : encodeSentence wd sd l with
    | none => rw [hb] at h; exact Option.noConfusion h
    | some b =>
      rw [hb] at h
      simp only [Option.some_bind, Option.map_some', Option.some.injEq] at h
      subst h
      rw [List.append_nil]
      unfold encodeSentence at hb
      cases hsd : alookup (pyStrip l) sd with
      | some code2 =>
        rw [hsd] at hb
        simp only [Option.some.injEq] at hb
        subst hb
        have hline : l = pyStrip l := hsent (by rw [hsd]; rfl)
        have hx : (2 :: int_to_3bytes code2) ++ r =
            2 :: ((code2 >>> 16) &&& 255) :: ((code2 >>> 8) &&& 255) ::
              (code2 &&& 255) :: r := rfl
        rw [hx]
        apply decompress_step
        rw [dtStep_flag2]
        have hmem := alookup_mem (pyStrip l) sd code2 hsd
        have hlt : code2 < 16777216 := hs.2.2 (pyStrip l, code2) hmem
        rw [bytes3_roundtrip code2 hlt,
          revGet_alookup sd (pyStrip l) code2 hs hsd, ← hline]
      | none =>
        rw [hsd] at hb
        have := decode_tokens wd ld sd hw (wsTokens l) b r hb
        rw [wsTokens_join] at this
        exact this

theorem decode_lines (wd ld sd : Dict) (hw : DictWF wd) (hl : DictWF ld)
    (hs : DictWF sd) (ls : List Str) (hok : ∀ x ∈ ls, LineOK ld sd x)
    (bs r : Bytes) (h : concatMapM (encodeLine wd ld sd) ls = some bs) :
    decompress_text_with_dictionary (bs ++ r) wd ld sd =
      (decompress_text_with_dictionary r wd ld sd).map (joinAll ls ++ ·) := by
  induction ls generalizing bs with
  | nil =>
    simp only [concatMapM, Option.some.injEq] at h
    subst h
    simp only [List.nil_append, joinAll_nil]
    cases decompress_text_with_dictionary r wd ld sd <;> simp
  | cons l ls ih =>
    simp only [concatMapM] at h
    cases hbl : encodeLine wd ld sd l with
    | none => rw [hbl] at h; exact Option.noConfusion h
    | some bl =>
      rw [hbl] at h
      simp only [Option.some_bind] at h
      cases hbs : concatMapM (encodeLine wd ld sd) ls with
      | none => rw [hbs] at h; exact Option.noConfusion h
      | some bs' =>
        rw [hbs] at h
        simp only [Option.map_some', Option.some.injEq] at h
        subst h
        rw [List.append_assoc,
          decode_line wd ld sd hw hl hs l (hok l (by simp)) bl (bs' ++ r)
            hbl,
          ih (fun x hx => hok x (by simp [hx])) bs' hbs, joinAll_cons]
        cases decompress_text_with_dictionary r wd ld sd <;> simp

/-- The amended round trip for the tokenizing codec of Black_Hole_103. -/
theorem roundtrip_text (text : Str) (wd ld sd : Dict) (b : Bytes)
    (hw : DictWF wd) (hl : DictWF ld) (hs : DictWF sd)
    (hok : ∀ x ∈ pySplitlines text, LineOK ld sd x)
    (hc : compress_text_with_dictionary text wd ld sd = some b) :
    decompress_text_with_dictionary b wd ld sd = some text := by
  unfold compress_text_with_dictionary at hc
  have := decode_lines wd ld sd hw hl hs (pySplitlines text) hok b [] hc
  rw [List.append_nil, pySplitlines_join] at this
  rw [this]
  simp [decompress_text_with_dictionary, dtLoop]

end BH103

namespace BH104

theorem match_in_dictionary_miss (sha : Sha8) (dict : List Str) (line : Str)
    (h1 : pyStrip line ∉ dict)
    (h2 : ∀ w ∈ pySplitWs (pyStrip line), w ∉ dict)
    (h3 : ∀ s ∈ puncSplit (pyStrip line),
      pyStrip s ≠ [] → pyStrip s ∉ dict) :
    match_in_dictionary sha dict line =
      (xor_prime_fallback (pyStrip line)).map (fun e => (e, false)) := by
  unfold match_in_dictionary
  rw [if_neg h1]
  have hf1 : (pySplitWs (pyStrip line)).find? (fun w => dict.contains w) =
      none := by
    rw [List.find?_eq_none]
    intro w hw
    simpa using h2 w hw
  have hf2 : (puncSplit (pyStrip line)).find?
      (fun s => !(pyStrip s).isEmpty && dict.contains (pyStrip s)) =
      none := by
    rw [List.find?_eq_none]
    intro s hsm
    by_cases hempty : (pyStrip s).isEmpty
    · simp [hempty]
    · have : pyStrip s ≠ [] := by simpa [List.isEmpty_iff] using hempty
      have := h3 s hsm this
      simp_all
  rw [hf1, hf2]

theorem pySliceIdx_zero (len : Nat) : pySliceIdx len 0 = 0 := by
  unfold pySliceIdx
  simp
  try omega

theorem pySliceIdx_len (len : Nat) : pySliceIdx len (len : Int) = len := by
  unfold pySliceIdx
  split_ifs with h
  · omega
  · omega

theorem pySlice_full (l : Bytes) : pySlice l 0 ((l.length : Int)) = l := by
  unfold pySlice
  rw [pySliceIdx_zero, pySliceIdx_len, List.take_length, List.drop_zero]

/-- Decoding a buffer holding exactly one fallback-tagged token (flag 0,
zero count `lz ≤ 8`, then the nonzero tail of the 8-byte code) yields the
one placeholder line `[FALLBACK:<code>]`, where the code is the big-endian
value of the reassembled 8 bytes. -/
theorem ddLoop_single_fallback (sha : Sha8) (dict : List Str) (lz : Nat)
    (body : Bytes) (fuel : Nat) (hlz : lz ≤ 8)
    (hlen : body.length = 8 - lz) (hf : 1 ≤ fuel) :
    ddLoop sha dict (0 :: lz :: body) fuel 0 =
      some [pystr "[FALLBACK:" ++
        natToDec (fromBytesBE (List.replicate lz 0 ++ body)) ++
        pystr "]"] := by
  obtain ⟨f, rfl⟩ : ∃ f, fuel = f + 1 := ⟨fuel - 1, by omega⟩
  have hdl : (0 :: lz :: body).length = 10 - lz := by
    simp [hlen]
    omega
  simp only [ddLoop]
  rw [if_pos (by rw [hdl]; omega)]
  have hi0 : pyIdx (0 :: lz :: body) 0 = some 0 := rfl
  have hi1 : pyIdx (0 :: lz :: body) (0 + 1) = some lz := rfl
  rw [hi0]
  simp only [Option.some_bind]
  rw [hi1]
  simp only [Option.some_bind]
  have harith : (0 : Int) + 2 + (8 - (lz : Int)) =
      (((0 :: lz :: body).length : Nat) : Int) := by
    rw [hdl]
    omega
  rw [harith]
  have hrest : ddLoop sha dict (0 :: lz :: body) f
      (((0 :: lz :: body).length : Nat) : Int) = some [] := by
    cases f with
    | zero => simp [ddLoop]
    | succ f2 => simp [ddLoop]
  rw [hrest, pySlice_full]
  have hdrop : (0 :: lz :: body).drop 2 = body := rfl
  rw [hdrop]
  simp

end BH104

/-! ### Claim theorems -/

/-- C1 (counterexample): the round trip fails on texts whose every
dictionary hit resolves in the reverse maps.  Four concrete failures: a
line-tier hit on a text without a trailing line feed gains one in decoding;
a sentence boundary match drops the separator space even with empty
dictionaries; a sentence-tier hit loses the line terminator; and two words
sharing one ID (both resolvable) decode to the later entry. -/
theorem C1_counterexample :
    (BH103.compress_text_with_dictionary (pystr "hello world") []
        [(pystr "hello world", 0)] [] = some [3, 0, 0, 0] ∧
      BH103.decompress_text_with_dictionary [3, 0, 0, 0] []
        [(pystr "hello world", 0)] [] = some (pystr "hello world\n") ∧
      pystr "hello world\n" ≠ pystr "hello world") ∧
    (BH103.compress_text_with_dictionary (pystr "A. B\n") [] [] [] =
        some [0, 0, 2, 65, 46, 0, 0, 1, 66, 5, 0, 1, 10] ∧
      BH103.decompress_text_with_dictionary
        [0, 0, 2, 65, 46, 0, 0, 1, 66, 5, 0, 1, 10] [] [] [] =
        some (pystr "A.B\n") ∧
      pystr "A.B\n" ≠ pystr "A. B\n") ∧
    (BH103.compress_text_with_dictionary (pystr "Hi\n") [] []
        [(pystr "Hi", 0)] = some [2, 0, 0, 0] ∧
      BH103.decompress_text_with_dictionary [2, 0, 0, 0] [] []
        [(pystr "Hi", 0)] = some (pystr "Hi") ∧
      pystr "Hi" ≠ pystr "Hi\n") ∧
    (BH103.compress_text_with_dictionary (pystr "a")
        [(pystr "a", 0), (pystr "b", 0)] [] [] = some [1, 0, 0, 0] ∧
      BH103.decompress_text_with_dictionary [1, 0, 0, 0]
        [(pystr "a", 0), (pystr "b", 0)] [] [] = some (pystr "b") ∧
      pystr "b" ≠ pystr "a") := by
  refine ⟨⟨?_, ?_, ?_⟩, ⟨?_, ?_, ?_⟩, ⟨?_, ?_, ?_⟩, ⟨?_, ?_, ?_⟩⟩ <;> decide

/-- C1 (amended): for dictionaries with distinct keys, distinct IDs below
`2^24`, and a text in which every line hitting the line dictionary is its
stripped form plus a line feed, and every other line is not split by the
sentence regex and, on a sentence-dictionary hit, equals its stripped form,
every successful encoding decodes back to the exact original text. -/
theorem C1_roundtrip (text : Str) (wd ld sd : Dict) (b : Bytes)
    (hw : DictWF wd) (hl : DictWF ld) (hs : DictWF sd)
    (hok : ∀ x ∈ pySplitlines text, BH103.LineOK ld sd x)
    (hc : BH103.compress_text_with_dictionary text wd ld sd = some b) :
    BH103.decompress_text_with_dictionary b wd ld sd = some text :=
  BH103.roundtrip_text text wd ld sd b hw hl hs hok hc

/-- C1 (witness): the amended round trip at the text `"hello world\n"`
with the line dictionary mapping `"hello world"` to ID 0. -/
theorem C1_roundtrip_witness :
    BH103.decompress_text_with_dictionary [3, 0, 0, 0] []
      [(pystr "hello world", 0)] [] = some (pystr "hello world\n") :=
  C1_roundtrip (pystr "hello world\n") [] [(pystr "hello world", 0)] []
    [3, 0, 0, 0] (by decide) (by decide) (by decide) (by decide) (by decide)

/-- C2 (counterexample): decoding the 4-byte stream `[3, 0, 0, 0]` with the
line dictionary mapping `"hello world"` to 0 yields `"hello world\n"`,
with a line feed appended by the flag-3 decoder, not the bare string
`"hello world"` the claim requires. -/
theorem C2_counterexample :
    BH103.decompress_text_with_dictionary [3, 0, 0, 0] []
        [(pystr "hello world", 0)] [] = some (pystr "hello world\n") ∧
      some (pystr "hello world\n") ≠ some (pystr "hello world") := by
  refine ⟨?_, ?_⟩ <;> decide

/-- C2 (amended): with line dictionary `{"hello world": 0}` and any word
and sentence dictionaries, encoding the single line `"hello world"` (with
or without a trailing line feed) produces exactly the 4 bytes
`[3, 0, 0, 0]`, and decoding those 4 bytes yields `"hello world\n"` — the
line entry followed by the line feed the decoder appends. -/
theorem C2_scenario (wd sd : Dict) :
    BH103.compress_text_with_dictionary (pystr "hello world") wd
        [(pystr "hello world", 0)] sd = some [3, 0, 0, 0] ∧
      BH103.compress_text_with_dictionary (pystr "hello world\n") wd
        [(pystr "hello world", 0)] sd = some [3, 0, 0, 0] ∧
      BH103.decompress_text_with_dictionary [3, 0, 0, 0] wd
        [(pystr "hello world", 0)] sd = some (pystr "hello world\n") :=
  ⟨rfl, rfl, rfl⟩

/-- C3 (counterexample): a leading-zero run of length 32 does round trip
exactly: only the header count saturates at 31, the 32nd zero stays in the
body, so nothing is lost. -/
theorem C3_counterexample :
    32 ≤ (((List.replicate 32 0 ++ [7]) :
        Bytes).takeWhile (· = 0)).length ∧
      BH103.decode_leading_zeros (BH103.encode_leading_zeros
        (List.replicate 32 0 ++ [7])) = List.replicate 32 0 ++ [7] := by
  refine ⟨?_, ?_⟩ <;> decide

/-- C3 (amended): for every byte sequence whose leading run of `0x00` bytes
has length at least 32, the round trip DOES reproduce the input exactly:
the encoder only saturates the header count at 31 and keeps the remaining
zeros in the body, so decoding restores the data unchanged. -/
theorem C3_long_run_roundtrip (x : Bytes)
    (_h : 32 ≤ (x.takeWhile (· = 0)).length) :
    BH103.decode_leading_zeros (BH103.encode_leading_zeros x) = x :=
  decode_encode_leading_zeros x

/-- C3 (witness): the amended statement at 40 zero bytes. -/
theorem C3_long_run_roundtrip_witness :
    32 ≤ (((List.replicate 40 0) : Bytes).takeWhile (· = 0)).length ∧
      BH103.decode_leading_zeros (BH103.encode_leading_zeros
        (List.replicate 40 0)) = List.replicate 40 0 :=
  ⟨by decide, C3_long_run_roundtrip (List.replicate 40 0) (by decide)⟩

/-- C4 (code bug): a length field truncated by the end of the buffer is
silently misparsed, not rejected.  On `[0]` the whole 2-byte length field
is missing: `int.from_bytes` of the empty slice yields 0 and decoding
returns `""` successfully.  On `[5, 7]` only one of the two length bytes
is present and is read as the length 7, the truncated payload slice is
empty, and decoding again returns `""` successfully.  Only the 3-byte ID
fields (here flag 1 on `[1]`) abort, and with an IndexError rather than a
MalformedStreamError. -/
theorem C4_truncated_length_no_error :
    BH103.decompress_text_with_dictionary [0] [] [] [] = some [] ∧
      BH103.decompress_text_with_dictionary [5, 7] [] [] [] = some [] ∧
      BH103.decompress_text_with_dictionary [1] [] [] [] = none := by
  refine ⟨?_, ?_, ?_⟩ <;> decide

/-- C5: the byte-wise XOR transform is self-inverse, for the `0xFF`
transform of Black_Hole_103, the `0xAA` transform of
`SmartCompressor.reversible_transform`, and the chunked `0xFF` transform of
Black_Hole_104. -/
theorem C5_xor_involution (x : Bytes) :
    BH103.transform_with_pattern (BH103.transform_with_pattern x) = x ∧
      BH104.reversible_transform (BH104.reversible_transform x) = x ∧
      BH104.transform_with_pattern (BH104.transform_with_pattern x) = x := by
  have h255 : ((fun b => b ^^^ 255) ∘ fun b : Nat => b ^^^ 255) = id := by
    funext b
    simp [Function.comp_apply, Nat.xor_cancel_right]
  have h170 : ((fun b => b ^^^ 170) ∘ fun b : Nat => b ^^^ 170) = id := by
    funext b
    simp [Function.comp_apply, Nat.xor_cancel_right]
  refine ⟨?_, ?_, ?_⟩
  · simp only [BH103.transform_with_pattern, List.map_map, h255,
      List.map_id]
  · simp only [BH104.reversible_transform, List.map_map, h170, List.map_id]
  · rw [transform104_eq_map, transform104_eq_map]
    simp only [List.map_map, h255, List.map_id]

/-- C6: for a leading run of `0x00` bytes of length at most 31, the encoder
emits one header byte equal to the run count shifted left by 3 followed by
the remaining bytes, and the decoder prepends that many zero bytes, so the
round trip is exact. -/
theorem C6_leading_zero_roundtrip (x : Bytes)
    (h : (x.takeWhile (· = 0)).length ≤ 31) :
    BH103.encode_leading_zeros x =
        (((x.takeWhile (· = 0)).length) <<< 3) ::
          x.drop ((x.takeWhile (· = 0)).length) ∧
      BH103.decode_leading_zeros (BH103.encode_leading_zeros x) = x := by
  constructor
  · unfold BH103.encode_leading_zeros
    have hmin : min ((x.takeWhile (· = 0)).length) 31 =
        (x.takeWhile (· = 0)).length := by omega
    rw [hmin, and31_eq_mod, Nat.mod_eq_of_lt (by omega)]
  · exact decode_encode_leading_zeros x

/-- C6 (witness): the round trip at `[0, 0, 5]`, a run of length 2. -/
theorem C6_leading_zero_roundtrip_witness :
    (([0, 0, 5] : Bytes).takeWhile (· = 0)).length ≤ 31 ∧
      (BH103.encode_leading_zeros [0, 0, 5] =
          ((([0, 0, 5] : Bytes).takeWhile (· = 0)).length <<< 3) ::
            ([0, 0, 5] : Bytes).drop
              ((([0, 0, 5] : Bytes).takeWhile (· = 0)).length) ∧
        BH103.decode_leading_zeros (BH103.encode_leading_zeros [0, 0, 5]) =
          [0, 0, 5]) :=
  ⟨by decide, C6_leading_zero_roundtrip [0, 0, 5] (by decide)⟩

/-- C7: a dictionary-ID token (flag 1, 2 or 3) whose 3-byte ID is absent
from the corresponding reverse map does not make decoding fail: the lookup
yields the empty string (here: flags 1 and 2 contribute nothing, flag 3
still appends the line feed) and decoding continues with the rest of the
stream. -/
theorem C7_unknown_id (wd ld sd : Dict) (b0 b1 b2 : Nat) (r : Bytes) :
    (BH103.bytes3_to_int b0 b1 b2 ∉ wd.map (·.2) →
      BH103.decompress_text_with_dictionary (1 :: b0 :: b1 :: b2 :: r)
          wd ld sd =
        BH103.decompress_text_with_dictionary r wd ld sd) ∧
    (BH103.bytes3_to_int b0 b1 b2 ∉ sd.map (·.2) →
      BH103.decompress_text_with_dictionary (2 :: b0 :: b1 :: b2 :: r)
          wd ld sd =
        BH103.decompress_text_with_dictionary r wd ld sd) ∧
    (BH103.bytes3_to_int b0 b1 b2 ∉ ld.map (·.2) →
      BH103.decompress_text_with_dictionary (3 :: b0 :: b1 :: b2 :: r)
          wd ld sd =
        (BH103.decompress_text_with_dictionary r wd ld sd).map
          (fun s => [10] ++ s)) := by
  refine ⟨fun h => ?_, fun h => ?_, fun h => ?_⟩
  · rw [BH103.decompress_step wd ld sd 1 (b0 :: b1 :: b2 :: r) [] r
      (by rw [BH103.dtStep_flag1, revGet_not_mem wd _ h])]
    cases BH103.decompress_text_with_dictionary r wd ld sd <;> simp
  · rw [BH103.decompress_step wd ld sd 2 (b0 :: b1 :: b2 :: r) [] r
      (by rw [BH103.dtStep_flag2, revGet_not_mem sd _ h])]
    cases BH103.decompress_text_with_dictionary r wd ld sd <;> simp
  · rw [BH103.decompress_step wd ld sd 3 (b0 :: b1 :: b2 :: r) [10] r
      (by rw [BH103.dtStep_flag3, revGet_not_mem ld _ h]; rfl)]

/-- C7 (witness): ID 5 is absent from the word reverse map
`{0: "cat"}`; the flag-1 token is decoded as the empty string and the
stream continues (here: ends). -/
theorem C7_unknown_id_witness :
    BH103.decompress_text_with_dictionary [1, 0, 0, 5]
        [(pystr "cat", 0)] [] [] =
      BH103.decompress_text_with_dictionary [] [(pystr "cat", 0)] [] [] :=
  (C7_unknown_id [(pystr "cat", 0)] [] [] 0 0 5 []).1 (by decide)

/-- C8: with word dictionary `{"cat": 0, "dog": 1}` and line and sentence
dictionaries that do not match the input, `"cat dog cat"` encodes to
exactly the byte sequence of `[DictWord(0), Whitespace(" "), DictWord(1),
Whitespace(" "), DictWord(0)]` and decodes back to `"cat dog cat"`. -/
theorem C8_word_scenario (ld sd : Dict)
    (hld : alookup (pystr "cat dog cat") ld = none)
    (hsd : alookup (pystr "cat dog cat") sd = none) :
    BH103.compress_text_with_dictionary (pystr "cat dog cat")
        [(pystr "cat", 0), (pystr "dog", 1)] ld sd =
      some [1, 0, 0, 0, 5, 0, 1, 32, 1, 0, 0, 1, 5, 0, 1, 32,
        1, 0, 0, 0] ∧
    BH103.decompress_text_with_dictionary
        [1, 0, 0, 0, 5, 0, 1, 32, 1, 0, 0, 1, 5, 0, 1, 32, 1, 0, 0, 0]
        [(pystr "cat", 0), (pystr "dog", 1)] ld sd =
      some (pystr "cat dog cat") := by
  constructor
  · unfold BH103.compress_text_with_dictionary
    rw [show pySplitlines (pystr "cat dog cat") = [pystr "cat dog cat"]
      from rfl]
    simp only [BH103.concatMapM]
    unfold BH103.encodeLine
    rw [show pyStrip (pystr "cat dog cat") = pystr "cat dog cat" from rfl,
      hld]
    rw [show sentSplit (pystr "cat dog cat") = [pystr "cat dog cat"]
      from rfl]
    simp only [BH103.concatMapM]
    unfold BH103.encodeSentence
    rw [show pyStrip (pystr "cat dog cat") = pystr "cat dog cat" from rfl,
      hsd]
    rfl
  · rfl

/-- C8 (witness): the scenario with empty line and sentence
dictionaries. -/
theorem C8_word_scenario_witness :
    BH103.compress_text_with_dictionary (pystr "cat dog cat")
        [(pystr "cat", 0), (pystr "dog", 1)] [] [] =
      some [1, 0, 0, 0, 5, 0, 1, 32, 1, 0, 0, 1, 5, 0, 1, 32,
        1, 0, 0, 0] ∧
    BH103.decompress_text_with_dictionary
        [1, 0, 0, 0, 5, 0, 1, 32, 1, 0, 0, 1, 5, 0, 1, 32, 1, 0, 0, 0]
        [(pystr "cat", 0), (pystr "dog", 1)] [] [] =
      some (pystr "cat dog cat") :=
  C8_word_scenario [] [] (by decide) (by decide)

/-- C9 (counterexample): two failures of the claim at one input.  First,
decoding a fallback-tagged token CAN recover the original line: the line
`"[FALLBACK:2147482326]"` is a fixed point of the checksum-and-placeholder
cycle — its character codes sum to 1321, XOR with 2147483647 gives
2147482326, and the decoder prints exactly `"[FALLBACK:2147482326]"`
again, so the whole compress-then-decompress cycle of
`DictionaryCompressor` returns the original line.  Second, the emitted
code is the checksum of the STRIPPED line (value 2147482326, last byte
214), not of the whole raw line including its terminator (which would be
2147482316, last byte 204). -/
theorem C9_counterexample :
    BH104.compress_file_data (fun _ => List.replicate 8 0) []
        [pystr "[FALLBACK:2147482326]\n"] =
      some [0, 4, 127, 255, 250, 214] ∧
    BH104.ddLoop (fun _ => List.replicate 8 0) []
        [0, 4, 127, 255, 250, 214] 6 0 =
      some [pystr "[FALLBACK:2147482326]"] ∧
    pyStrip (pystr "[FALLBACK:2147482326]\n") =
      pystr "[FALLBACK:2147482326]" ∧
    BH104.match_in_dictionary (fun _ => List.replicate 8 0) []
        (pystr "[FALLBACK:2147482326]\n") =
      some ([0, 0, 0, 0, 127, 255, 250, 214], false) ∧
    BH104.xor_prime_fallback (pystr "[FALLBACK:2147482326]\n") =
      some [0, 0, 0, 0, 127, 255, 250, 204] ∧
    ([0, 0, 0, 0, 127, 255, 250, 214] : Bytes) ≠
      [0, 0, 0, 0, 127, 255, 250, 204] := by
  refine ⟨?_, ?_, ?_, ?_, ?_, ?_⟩ <;> decide

/-- C9 (amended): for a line that misses the dictionary entirely, the
emitted 8-byte fallback code is the sum of the character codes of the
STRIPPED line XOR 2147483647, big-endian; and decoding a fallback-tagged
token does not consult the dictionary at all: it emits the placeholder
`"[FALLBACK:<code>]"` holding the numeric value of the code (which, as the
counterexample shows, coincides with the original line only for contrived
fixed points). -/
theorem C9_fallback (sha : BH104.Sha8) (dict : List Str) (line : Str)
    (lz : Nat) (body : Bytes) (fuel : Nat)
    (h1 : pyStrip line ∉ dict)
    (h2 : ∀ w ∈ BH104.pySplitWs (pyStrip line), w ∉ dict)
    (h3 : ∀ s ∈ BH104.puncSplit (pyStrip line),
      pyStrip s ≠ [] → pyStrip s ∉ dict)
    (hlz : lz ≤ 8) (hlen : body.length = 8 - lz) (hf : 1 ≤ fuel) :
    BH104.match_in_dictionary sha dict line =
      (BH104.toBytes8 ((pyStrip line).sum ^^^ 2147483647)).map
        (fun e => (e, false)) ∧
    BH104.ddLoop sha dict (0 :: lz :: body) fuel 0 =
      some [pystr "[FALLBACK:" ++
        BH104.natToDec (fromBytesBE (List.replicate lz 0 ++ body)) ++
        pystr "]"] :=
  ⟨by rw [BH104.match_in_dictionary_miss sha dict line h1 h2 h3]; rfl,
    BH104.ddLoop_single_fallback sha dict lz body fuel hlz hlen hf⟩

/-- C9 (witness): the line `"zzz\n"` with an empty dictionary: code
`366 XOR 2147483647 = 2147483281`, and the single-token stream with 4
stripped zeros decodes to the placeholder. -/
theorem C9_fallback_witness :
    BH104.match_in_dictionary (fun _ => List.replicate 8 0) []
        (pystr "zzz\n") =
      (BH104.toBytes8 ((pyStrip (pystr "zzz\n")).sum ^^^ 2147483647)).map
        (fun e => (e, false)) ∧
    BH104.ddLoop (fun _ => List.replicate 8 0) []
        (0 :: 4 :: [127, 255, 254, 145]) 1 0 =
      some [pystr "[FALLBACK:" ++
        BH104.natToDec (fromBytesBE (List.replicate 4 0 ++
          [127, 255, 254, 145])) ++
        pystr "]"] :=
  C9_fallback (fun _ => List.replicate 8 0) [] (pystr "zzz\n") 4
    [127, 255, 254, 145] 1 (by decide) (by decide) (by decide) (by decide)
    (by decide) (by decide)

/-- C10: an unrecognized flag byte (outside 0, 1, 2, 3, 5) does not raise:
exactly the one flag byte is consumed, nothing is appended for it, and
decoding continues at the next byte. -/
theorem C10_unknown_flag (wd ld sd : Dict) (flag : Nat) (rest : Bytes)
    (h0 : flag ≠ 0) (h1 : flag ≠ 1) (h2 : flag ≠ 2) (h3 : flag ≠ 3)
    (h5 : flag ≠ 5) :
    BH103.decompress_text_with_dictionary (flag :: rest) wd ld sd =
      BH103.decompress_text_with_dictionary rest wd ld sd := by
  rw [BH103.decompress_step wd ld sd flag rest [] rest
    (BH103.dtStep_other wd ld sd flag rest h0 h1 h2 h3 h5)]
  cases BH103.decompress_text_with_dictionary rest wd ld sd <;> simp

/-- C10 (witness): flag byte 4 is skipped; the remaining empty stream
decodes to the empty string on both sides. -/
theorem C10_unknown_flag_witness :
    BH103.decompress_text_with_dictionary [4] [] [] [] =
      BH103.decompress_text_with_dictionary [] [] [] [] :=
  C10_unknown_flag [] [] [] 4 [] (by decide) (by decide) (by decide)
    (by decide) (by decide)
